import Mathlib

/-!
Verification of the `serde_json_borrow` value/number core (`src/value.rs`).

Machine integers are modelled as `Nat` (for `u64`) and `Int` (for `i64`).
`f64` values are modelled by their IEEE-754 bit pattern, a `Nat` below `2^64`:
this captures exactly what the source observes about floats (the `== 0.0`
comparison, `to_bits`, negation, finiteness) without any real-number
approximation.
-/

namespace SJB

/-- `i64::MAX` viewed as an unsigned value, as used in `Number::as_i64`. -/
def i64MaxU : Nat := 2 ^ 63 - 1

/-- The two's-complement bit pattern of an `i64`, as a `Nat` (what `i64::hash`
feeds to the hasher). -/
def u64OfI64 (i : Int) : Nat := (i % (2 ^ 64 : Int)).toNat

/- An `f64` is modelled by its IEEE-754 bit pattern, a plain `Nat` below
`2^64`; the `F64` namespace holds the operations of that model. -/
namespace F64

/-- The sign bit (bit 63). -/
def sign (b : Nat) : Nat := b / 2 ^ 63

/-- The 11-bit exponent field (bits 52..62). -/
def expField (b : Nat) : Nat := (b / 2 ^ 52) % 2 ^ 11

/-- The 52-bit mantissa field (bits 0..51). -/
def mantField (b : Nat) : Nat := b % 2 ^ 52

/-- Whether the float is finite: the exponent field is not all ones. -/
def isFinite (b : Nat) : Bool := expField b != 2047

/-- Whether the float is a NaN: exponent all ones, nonzero mantissa. -/
def isNan (b : Nat) : Bool := expField b == 2047 && mantField b != 0

/-- Whether the float compares `== 0.0`: exponent and mantissa fields are
zero, i.e. the bit pattern is `+0.0` (`0`) or `-0.0` (`2^63`). -/
def isZeroVal (b : Nat) : Bool := b % 2 ^ 63 == 0

/-- IEEE negation: flip the sign bit. -/
def neg (b : Nat) : Nat := if b < 2 ^ 63 then b + 2 ^ 63 else b - 2 ^ 63

/-- `f64::to_bits`: the identity in this bit-pattern model. -/
def toBits (b : Nat) : Nat := b

/-- Rust `f64 ==`: false when either side is NaN; otherwise equal bit
patterns are equal values, and the two zeros compare equal. This is exact
IEEE-754 equality: besides the two zeros, distinct finite or infinite bit
patterns denote distinct values. -/
def beq (a b : Nat) : Bool :=
  if isNan a || isNan b then false
  else a == b || (isZeroVal a && isZeroVal b)

end F64

/-- The internal numeric union `N` of `src/value.rs`:
`PosInt(u64)`, `NegInt(i64)` (documented invariant: always `< 0`),
`Float(f64)` (documented invariant: always finite). -/
inductive N where
  | posInt (u : Nat)
  | negInt (i : Int)
  | float (f : Nat)
deriving DecidableEq

/-- `Number` wraps `N`, as in the source. -/
structure Number where
  n : N
deriving DecidableEq

/-- The documented invariants on `N`: a `PosInt` fits in a `u64`, a `NegInt`
is a strictly negative `i64`, a `Float` is finite. -/
def N.Inv : N → Prop
  | .posInt u => u < 2 ^ 64
  | .negInt i => -(2 ^ 63) ≤ i ∧ i < 0
  | .float f => F64.isFinite f = true ∧ f < 2 ^ 64

namespace Number

/-- `Number::as_u64`. -/
def as_u64 (num : Number) : Option Nat :=
  match num.n with
  | .posInt v => some v
  | _ => none

/-- `Number::as_i64`. -/
def as_i64 (num : Number) : Option Int :=
  match num.n with
  | .posInt n => if n ≤ i64MaxU then some (n : Int) else none
  | .negInt v => some v
  | _ => none

/-- `Number::is_f64`. -/
def is_f64 (num : Number) : Bool :=
  match num.n with
  | .float _ => true
  | _ => false

/-- `Number::is_u64`. -/
def is_u64 (num : Number) : Bool :=
  match num.n with
  | .posInt _ => true
  | _ => false

/-- `Number::is_i64`. -/
def is_i64 (num : Number) : Bool :=
  match num.n with
  | .posInt v => v ≤ i64MaxU
  | .negInt _ => true
  | .float _ => false

/-- Whether the variant is `NegInt` (used to state the trichotomy of §8). -/
def isNegIntVariant (num : Number) : Bool :=
  match num.n with
  | .negInt _ => true
  | _ => false

/-- `From<u64> for Number`. -/
def fromU64 (v : Nat) : Number := ⟨.posInt v⟩

/-- `From<i64> for Number`. -/
def fromI64 (v : Int) : Number := ⟨.negInt v⟩

/-- `From<f64> for Number`. -/
def fromF64 (v : Nat) : Number := ⟨.float v⟩

end Number

/-- `PartialEq for N`: variant-exact; same-variant payloads compared with the
payload type's `==` (for `Float`, IEEE `f64` equality). -/
def N.beq : N → N → Bool
  | .posInt a, .posInt b => a == b
  | .negInt a, .negInt b => a == b
  | .float a, .float b => F64.beq a b
  | _, _ => false

/-- `Hash for N`: the single `u64` word the implementation feeds the hasher.
`PosInt` feeds the value, `NegInt` feeds the two's-complement bits, `Float`
feeds the bit pattern, except that any float equal to `0.0` feeds the bits of
canonical `+0.0`. Two Numbers hash alike iff they feed the same word. -/
def N.hashWord : N → Nat
  | .posInt i => i
  | .negInt i => u64OfI64 i
  | .float f => if F64.isZeroVal f then F64.toBits 0 else F64.toBits f

/-- `Cow<'ctx, str>`: either a borrowed slice of the input buffer or an owned
string. Only the content matters to `PartialEq`, hashing and the accessors;
the `borrowed` tag records which constructor was chosen. -/
structure CowStr where
  borrowed : Bool
  content : String
deriving DecidableEq

/-- The `Value` enum of `src/value.rs`: Null, Bool, Number, Str (a `Cow`),
Array (a `Vec<Value>`), Object (a `Vec<(&str, Value)>`). -/
inductive Value where
  | null
  | bool (b : Bool)
  | number (num : Number)
  | str (s : CowStr)
  | array (vs : List Value)
  | object (kvs : List (String × Value))

mutual

/-- The derived `PartialEq for Value`: structural and recursive, with `Cow`
comparing by content and `Number` comparing through `N`'s `PartialEq`. -/
def valueEq : Value → Value → Bool
  | .null, .null => true
  | .bool a, .bool b => a == b
  | .number a, .number b => N.beq a.n b.n
  | .str a, .str b => a.content == b.content
  | .array a, .array b => valueListEq a b
  | .object a, .object b => valueKVListEq a b
  | _, _ => false

/-- Element-wise equality of `Vec<Value>`. -/
def valueListEq : List Value → List Value → Bool
  | [], [] => true
  | x :: xs, y :: ys => valueEq x y && valueListEq xs ys
  | _, _ => false

/-- Pair-wise equality of `Vec<(&str, Value)>`. -/
def valueKVListEq : List (String × Value) → List (String × Value) → Bool
  | [], [] => true
  | (k, x) :: xs, (l, y) :: ys => k == l && valueEq x y && valueKVListEq xs ys
  | _, _ => false

end

namespace Value

/-- `Value::is_null`. -/
def is_null : Value → Bool
  | .null => true
  | _ => false

/-- `Value::is_array`. -/
def is_array : Value → Bool
  | .array _ => true
  | _ => false

/-- `Value::is_object`. -/
def is_object : Value → Bool
  | .object _ => true
  | _ => false

/-- `Value::as_bool`. -/
def as_bool : Value → Option Bool
  | .bool b => some b
  | _ => none

/-- `Value::as_str`. -/
def as_str : Value → Option String
  | .str text => some text.content
  | _ => none

/-- `Value::as_i64`. -/
def as_i64 : Value → Option Int
  | .number n => n.as_i64
  | _ => none

end Value

/-- A path component accepted by `Value::get`: an integer position or a
string key. -/
inductive PathComp where
  | pos (i : Nat)
  | key (k : String)

/-- Modelled from the spec: the `Index` capability (`src/index.rs` is not in
the sources; only its use in `Value::get` is). Per the spec's dispatch rule,
a position against an `Array` selects the element at that position when in
bounds; a key against an `Object` selects the value of the first pair (in
storage order) whose key equals the given string; every other combination
(out of bounds, key absent, variant mismatch) yields no value. -/
def indexInto : PathComp → Value → Option Value
  | .pos i, .array vs => vs.get? i
  | .key k, .object kvs => (kvs.find? (fun p => p.1 == k)).map (fun p => p.2)
  | _, _ => none

/-- `Value::get`: dispatch through the index capability, with the static
`NULL` sentinel substituted on a miss (`unwrap_or(&NULL)`). -/
def Value.get (v : Value) (c : PathComp) : Value :=
  (indexInto c v).getD .null

/-- Chained navigation `v.get(c1).get(c2)...`. -/
def getPath (v : Value) (ps : List PathComp) : Value :=
  ps.foldl Value.get v

/-- The code points of a string literal (text is modelled as a list of
Unicode code points throughout the rendering model). -/
def codes (s : String) : List Nat := s.data.map (fun c => c.toNat)

/-- Decimal digits of a `Nat`, most significant first, as code points.
The fuel `n + 1` always suffices since a number has at most `n + 1` digits. -/
def natDigsAux : Nat → Nat → List Nat
  | 0, _ => []
  | fuel + 1, n =>
    if n < 10 then [48 + n]
    else natDigsAux fuel (n / 10) ++ [48 + n % 10]

/-- Decimal rendering of a `Nat` (the `Debug` form of a `u64`). -/
def natDigs (n : Nat) : List Nat := natDigsAux (n + 1) n

/-- The `Debug` form of an `i64`: a leading minus sign (code 45) for negative
values, then the decimal digits of the magnitude. -/
def renderI64 (i : Int) : List Nat :=
  if i < 0 then 45 :: natDigs (-i).toNat else natDigs i.toNat

/-- The `k` decimal digits of the fraction `num / 2^k` (with `num < 2^k`):
the digits of `num * 5^k`, left-padded with zeros to width `k`. -/
def fracDigits (num k : Nat) : List Nat :=
  List.replicate (k - (natDigs (num * 5 ^ k)).length) 48 ++ natDigs (num * 5 ^ k)

/-- The significand of a finite float: the mantissa field, with the hidden
leading bit added for normal numbers. -/
def F64.sigMant (b : Nat) : Nat :=
  if F64.expField b == 0 then F64.mantField b else 2 ^ 52 + F64.mantField b

/-- The effective binary exponent field of a finite float (subnormals use
exponent `1`); the value is `sigMant b * 2 ^ (normExp b - 1075)`. -/
def F64.normExp (b : Nat) : Nat :=
  if F64.expField b == 0 then 1 else F64.expField b

/-- Modelled from the external `f64` `Debug` formatting that
`write!(formatter, "Number({:?})", n)` delegates to: a finite float prints an
optional minus sign, the integer part, a decimal point (code 46) and a
fractional part (`.0` for integral values); nonfinite bit patterns print
`inf`, `-inf` or `NaN`. The std implementation prints the shortest
round-tripping decimal and may use an exponent for extreme magnitudes; this
model prints the exact decimal expansion. Both always place a non-digit mark
after the leading digits of a finite float, which is all the theorems use. -/
def renderF64 (b : Nat) : List Nat :=
  if F64.expField b == 2047 then
    if F64.mantField b == 0 then
      if F64.sign b == 1 then codes ("-inf") else codes ("inf")
    else codes ("NaN")
  else
    (if F64.sign b == 1 then [45] else []) ++
      (if 1075 ≤ F64.normExp b then
        natDigs (F64.sigMant b * 2 ^ (F64.normExp b - 1075)) ++ (46 :: [48])
      else
        natDigs (F64.sigMant b / 2 ^ (1075 - F64.normExp b)) ++
          (46 :: fracDigits (F64.sigMant b % 2 ^ (1075 - F64.normExp b))
            (1075 - F64.normExp b)))

/-- The payload rendered inside `Number(...)` by the `Debug` impl: the three
match arms print the `u64`, `i64` or `f64` payload with `{:?}`. -/
def renderN : N → List Nat
  | .posInt u => natDigs u
  | .negInt i => renderI64 i
  | .float f => renderF64 f

/-- Modelled from the external `str` `Debug` formatting: the content between
double quotes (code 34), with quotes and backslashes escaped. (Control
character escapes are not modelled; no theorem depends on them.) -/
def escapeCode (c : Nat) : List Nat :=
  if c == 34 then [92, 34] else if c == 92 then [92, 92] else [c]

/-- The `Debug` form of a string: quoted and escaped. -/
def quoteCodes (s : String) : List Nat :=
  34 :: (codes s).flatMap escapeCode ++ [34]

/-- The default `Debug` form of a sequence: `[` item `, ` item ... `]`. -/
def renderListDebug (items : List (List Nat)) : List Nat :=
  91 :: List.intercalate (codes (", ")) items ++ [93]

mutual

/-- `impl Debug for Value`: `Null`; `Bool({})`; `Number({:?})` on the `N`
payload; `Str({:?})`; `Array ` followed by the default rendering of the
element vector; `Object ` followed by the default rendering of the pair
vector. -/
def fmtDebug : Value → List Nat
  | .null => codes ("Null")
  | .bool b =>
    codes ("Bool(") ++ (if b then codes ("true") else codes ("false")) ++ codes (")")
  | .number num => codes ("Number(") ++ renderN num.n ++ codes (")")
  | .str s => codes ("Str(") ++ quoteCodes s.content ++ codes (")")
  | .array vs => codes ("Array ") ++ renderListDebug (fmtList vs)
  | .object kvs => codes ("Object ") ++ renderListDebug (fmtPairs kvs)

/-- Element-wise `Debug` rendering of a `Vec<Value>`. -/
def fmtList : List Value → List (List Nat)
  | [] => []
  | v :: vs => fmtDebug v :: fmtList vs

/-- Pair-wise `Debug` rendering of a `Vec<(&str, Value)>`; a tuple renders
as `(` key `, ` value `)`. -/
def fmtPairs : List (String × Value) → List (List Nat)
  | [] => []
  | (k, v) :: kvs =>
    (codes ("(") ++ quoteCodes k ++ codes (", ") ++ fmtDebug v ++ codes (")")) :: fmtPairs kvs

end

/-- The shape tag of the numeric union, used to state that the rendering
separates the three sub-shapes. -/
def N.shape : N → Nat
  | .posInt _ => 0
  | .negInt _ => 1
  | .float _ => 2

/-- The external `serde_json::value::Number` target of the owned conversion:
the same three-way union. -/
inductive SJNumber where
  | posInt (u : Nat)
  | negInt (i : Int)
  | float (f : Nat)
deriving DecidableEq

/-- Modelled from the external `From<u64> for serde_json::Number`. -/
def sjFromU64 (u : Nat) : SJNumber := .posInt u

/-- Modelled from the external `From<i64> for serde_json::Number`: negative
values become `NegInt`, non-negative ones `PosInt`. -/
def sjFromI64 (i : Int) : SJNumber :=
  if i < 0 then .negInt i else .posInt i.toNat

/-- Modelled from the external `serde_json::Number::from_f64`: succeeds
exactly on finite floats. -/
def sjFromF64 (f : Nat) : Option SJNumber :=
  if F64.isFinite f then some (.float f) else none

/-- `impl From<Number> for serde_json::value::Number`. The `.unwrap()` on the
`from_f64` result is modelled by the `Option`: `none` is the fatal path. -/
def numberToOwned (num : Number) : Option SJNumber :=
  match num.n with
  | .posInt n => some (sjFromU64 n)
  | .negInt n => some (sjFromI64 n)
  | .float n => sjFromF64 n

/-- The owned `serde_json::Value` target, with the map modelled as the
insertion-ordered pair list the spec describes for the object conversion. -/
inductive SJValue where
  | null
  | bool (b : Bool)
  | number (n : SJNumber)
  | string (s : String)
  | array (vs : List SJValue)
  | object (kvs : List (String × SJValue))

/-- Whether a `Number` respects the documented finiteness invariant on its
`Float` payload. -/
def Number.floatFinite (num : Number) : Bool :=
  match num.n with
  | .float f => F64.isFinite f
  | _ => true

mutual

/-- Whether every `Float` payload in the tree is finite (the documented
invariant of `N::Float`). -/
def floatsFinite : Value → Bool
  | .null => true
  | .bool _ => true
  | .number num => num.floatFinite
  | .str _ => true
  | .array vs => floatsFiniteList vs
  | .object kvs => floatsFinitePairs kvs

/-- `floatsFinite` over a `Vec<Value>`. -/
def floatsFiniteList : List Value → Bool
  | [] => true
  | v :: vs => floatsFinite v && floatsFiniteList vs

/-- `floatsFinite` over a `Vec<(&str, Value)>`. -/
def floatsFinitePairs : List (String × Value) → Bool
  | [] => true
  | (_, v) :: kvs => floatsFinite v && floatsFinitePairs kvs

end

mutual

/-- `impl From<Value> for serde_json::Value`: the recursive owned conversion.
The numeric `.unwrap()` is modelled by `Option` propagation. -/
def toOwned : Value → Option SJValue
  | .null => some .null
  | .bool b => some (.bool b)
  | .number num => (numberToOwned num).map .number
  | .str s => some (.string s.content)
  | .array vs => (toOwnedList vs).map .array
  | .object kvs => (toOwnedPairs kvs).map .object

/-- The element-wise conversion of a `Vec<Value>` (the `map`/`collect`). -/
def toOwnedList : List Value → Option (List SJValue)
  | [] => some []
  | v :: vs =>
    match toOwned v, toOwnedList vs with
    | some w, some ws => some (w :: ws)
    | _, _ => none

/-- The pair-wise conversion of a `Vec<(&str, Value)>`, with owned keys. -/
def toOwnedPairs : List (String × Value) → Option (List (String × SJValue))
  | [] => some []
  | (k, v) :: kvs =>
    match toOwned v, toOwnedPairs kvs with
    | some w, some ws => some ((k, w) :: ws)
    | _, _ => none

end

/-- The numeric part of the structure-preserving map the spec describes,
total on invariant-respecting numbers: the `Float` payload is carried
through unchanged. -/
def ownedOfNumber (num : Number) : SJNumber :=
  match num.n with
  | .posInt n => sjFromU64 n
  | .negInt n => sjFromI64 n
  | .float n => .float n

mutual

/-- The structure-preserving recursive mapping described by the spec:
`Null` to `Null`, `Bool` to `Bool`, `Number` to the owned number, `Str` to an
owned copy of the content, `Array` element-wise in order, `Object` pair-wise
in order with owned keys. -/
def ownedOf : Value → SJValue
  | .null => .null
  | .bool b => .bool b
  | .number num => .number (ownedOfNumber num)
  | .str s => .string s.content
  | .array vs => .array (ownedOfList vs)
  | .object kvs => .object (ownedOfPairs kvs)

/-- `ownedOf` element-wise over a list. -/
def ownedOfList : List Value → List SJValue
  | [] => []
  | v :: vs => ownedOf v :: ownedOfList vs

/-- `ownedOf` pair-wise over a pair list. -/
def ownedOfPairs : List (String × Value) → List (String × SJValue)
  | [] => []
  | (k, v) :: kvs => (k, ownedOf v) :: ownedOfPairs kvs

end

/-- `IsNode x v`: `x` is a node of the tree `v`, i.e. reachable from the root
by zero or more successful `index_into` steps. -/
inductive IsNode : Value → Value → Prop where
  | refl (v : Value) : IsNode v v
  | step {x w v : Value} (c : PathComp) (h : indexInto c v = some w)
      (hx : IsNode x w) : IsNode x v

theorem get_null (c : PathComp) : Value.get .null c = .null := by
  cases c <;> rfl

theorem getPath_null (ps : List PathComp) : getPath .null ps = .null := by
  induction ps with
  | nil => rfl
  | cons c ps ih =>
    show getPath (Value.get .null c) ps = .null
    rw [get_null]; exact ih

theorem find?_first {α : Type} (p : α → Bool) (pre post : List α) (a : α)
    (hpre : ∀ x ∈ pre, p x = false) (ha : p a = true) :
    (pre ++ a :: post).find? p = some a := by
  induction pre with
  | nil => simp [List.find?, ha]
  | cons x xs ih =>
    have hx : p x = false := hpre x (by simp)
    simp only [List.cons_append, List.find?, hx]
    exact ih (fun y hy => hpre y (by simp [hy]))

/-- C3: `Number::as_i64` returns `Some v` exactly when the variant is
`NegInt` (yielding its value), or the variant is `PosInt` with a value at
most `i64::MAX` (yielding it as a signed integer); a `PosInt` above
`i64::MAX` and a `Float` yield `None`. -/
theorem as_i64_characterization (num : Number) (v : Int) :
    num.as_i64 = some v ↔
      ((∃ i, num = ⟨.negInt i⟩ ∧ v = i) ∨
       (∃ u, num = ⟨.posInt u⟩ ∧ u ≤ i64MaxU ∧ v = (u : Int))) := by
  obtain ⟨n⟩ := num
  cases n with
  | posInt u =>
    by_cases hu : u ≤ i64MaxU
    · simp [Number.as_i64, hu, eq_comm]
    · simp only [Number.as_i64, if_neg hu]
      simp [hu]
  | negInt i => simp [Number.as_i64, eq_comm]
  | float f => simp [Number.as_i64]

/-- C4: every `Number` is in exactly one of the three states `is_u64`
(variant `PosInt`), variant `NegInt`, `is_f64` (variant `Float`); and
`is_i64` holds exactly for every `NegInt` and for a `PosInt` whose value is
at most `i64::MAX`, never for a `Float`. -/
theorem number_trichotomy (num : Number) :
    ((num.is_u64 = true ∧ num.isNegIntVariant = false ∧ num.is_f64 = false) ∨
     (num.is_u64 = false ∧ num.isNegIntVariant = true ∧ num.is_f64 = false) ∨
     (num.is_u64 = false ∧ num.isNegIntVariant = false ∧ num.is_f64 = true))
    ∧ (num.is_i64 = true ↔
        (num.isNegIntVariant = true ∨
         ∃ u, num = ⟨.posInt u⟩ ∧ u ≤ i64MaxU)) := by
  obtain ⟨n⟩ := num
  cases n with
  | posInt u =>
    refine ⟨.inl (by simp [Number.is_u64, Number.isNegIntVariant, Number.is_f64]), ?_⟩
    simp [Number.is_i64, Number.isNegIntVariant]
  | negInt i =>
    exact ⟨.inr (.inl (by simp [Number.is_u64, Number.isNegIntVariant, Number.is_f64])),
      by simp [Number.is_i64, Number.isNegIntVariant]⟩
  | float f =>
    exact ⟨.inr (.inr (by simp [Number.is_u64, Number.isNegIntVariant, Number.is_f64])),
      by simp [Number.is_i64, Number.isNegIntVariant]⟩

/-- C5: for a finite float, if it compares equal to `0.0` then
`Number::from(f)` and `Number::from(-f)` feed the hasher the same word,
namely the bits of canonical `+0.0`; a finite nonzero float feeds its own
bit pattern. -/
theorem float_zero_hash (f : Nat) (_hf : F64.isFinite f = true) :
    (F64.isZeroVal f = true →
      N.hashWord (Number.fromF64 f).n = N.hashWord (Number.fromF64 (F64.neg f)).n ∧
      N.hashWord (Number.fromF64 f).n = F64.toBits 0)
    ∧ (F64.isZeroVal f = false →
      N.hashWord (Number.fromF64 f).n = F64.toBits f) := by
  constructor
  · intro hz
    have hz' : F64.isZeroVal (F64.neg f) = true := by
      simp only [F64.isZeroVal, F64.neg, beq_iff_eq] at hz ⊢
      split <;> omega
    simp [Number.fromF64, N.hashWord, hz, hz', F64.toBits]
  · intro hz
    simp [Number.fromF64, N.hashWord, hz]

/-- Witness for C5 at the bit pattern of `-0.0` (sign bit set, all other
bits clear), which is finite and compares equal to `0.0`. -/
theorem float_zero_hash_witness :
    F64.isFinite (2 ^ 63) = true ∧
    F64.isZeroVal (2 ^ 63) = true ∧
    N.hashWord (Number.fromF64 (2 ^ 63)).n =
      N.hashWord (Number.fromF64 (F64.neg (2 ^ 63))).n :=
  ⟨by decide, by decide,
    ((float_zero_hash (2 ^ 63) (by decide)).1 (by decide)).1⟩

/-- C6: the `PartialEq` of the numeric union is variant-exact — any two
different variants compare unequal whatever the payloads, in particular
`PosInt(0)` and `Float(0.0)` — and within one variant it is payload equality
(IEEE `f64` equality for `Float`). -/
theorem numeric_eq_variant_exact :
    (∀ (a : Nat) (b : Int), N.beq (.posInt a) (.negInt b) = false)
    ∧ (∀ (a : Int) (b : Nat), N.beq (.negInt a) (.posInt b) = false)
    ∧ (∀ (a : Nat) (b : Nat), N.beq (.posInt a) (.float b) = false)
    ∧ (∀ (a : Nat) (b : Nat), N.beq (.float a) (.posInt b) = false)
    ∧ (∀ (a : Int) (b : Nat), N.beq (.negInt a) (.float b) = false)
    ∧ (∀ (a : Nat) (b : Int), N.beq (.float a) (.negInt b) = false)
    ∧ N.beq (.posInt 0) (.float 0) = false
    ∧ (∀ a b : Nat, N.beq (.posInt a) (.posInt b) = (a == b))
    ∧ (∀ a b : Int, N.beq (.negInt a) (.negInt b) = (a == b))
    ∧ (∀ a b : Nat, N.beq (.float a) (.float b) = F64.beq a b) :=
  ⟨fun _ _ => rfl, fun _ _ => rfl, fun _ _ => rfl, fun _ _ => rfl,
   fun _ _ => rfl, fun _ _ => rfl, rfl,
   fun _ _ => rfl, fun _ _ => rfl, fun _ _ => rfl⟩

/-- C1: `get` dispatch — an in-bounds position on an `Array` returns exactly
the element at that position; a key on an `Object` returns the value of the
first pair (in storage order) with that key, even under duplicates; an
out-of-bounds position, an absent key, a position on a non-`Array` or a key
on a non-`Object` all return the `Null` sentinel. -/
theorem get_dispatch :
    (∀ (vs : List Value) (i : Nat) (h : i < vs.length),
        Value.get (.array vs) (.pos i) = vs.get ⟨i, h⟩)
    ∧ (∀ (vs : List Value) (i : Nat), vs.length ≤ i →
        Value.get (.array vs) (.pos i) = .null)
    ∧ (∀ (pre post : List (String × Value)) (k : String) (v : Value),
        (∀ p ∈ pre, p.1 ≠ k) →
        Value.get (.object (pre ++ (k, v) :: post)) (.key k) = v)
    ∧ (∀ (kvs : List (String × Value)) (k : String),
        (∀ p ∈ kvs, p.1 ≠ k) → Value.get (.object kvs) (.key k) = .null)
    ∧ (∀ (v : Value) (i : Nat), v.is_array = false →
        Value.get v (.pos i) = .null)
    ∧ (∀ (v : Value) (k : String), v.is_object = false →
        Value.get v (.key k) = .null) := by
  refine ⟨?_, ?_, ?_, ?_, ?_, ?_⟩
  · intro vs i h
    simp [Value.get, indexInto, List.getElem?_eq_getElem h]
  · intro vs i h
    simp [Value.get, indexInto, List.getElem?_eq_none h]
  · intro pre post k v hpre
    have hfind : (pre ++ (k, v) :: post).find? (fun p => p.1 == k) = some (k, v) :=
      find?_first _ pre post (k, v)
        (fun p hp => beq_eq_false_iff_ne.mpr (hpre p hp)) (by simp)
    simp [Value.get, indexInto, hfind]
  · intro kvs k hk
    have hfind : kvs.find? (fun p => p.1 == k) = none :=
      List.find?_eq_none.mpr (fun p hp => by simp [hk p hp])
    simp [Value.get, indexInto, hfind]
  · intro v i h
    cases v <;> first
      | rfl
      | exact absurd h (by simp [Value.is_array])
  · intro v k h
    cases v <;> first
      | rfl
      | exact absurd h (by simp [Value.is_object])

/-- Witness for C1: a position hit, a duplicate-key first-match hit, an
out-of-bounds miss, an absent-key miss, and two variant mismatches. -/
theorem get_dispatch_witness :
    Value.get (.array [.bool true, .null]) (.pos 0) = .bool true
    ∧ Value.get (.array [.bool true, .null]) (.pos 2) = .null
    ∧ Value.get (.object [("a", .bool true), ("a", .bool false)]) (.key ("a"))
        = .bool true
    ∧ Value.get (.object [("a", .bool true)]) (.key ("b")) = .null
    ∧ Value.get (.bool false) (.pos 0) = .null
    ∧ Value.get (.array []) (.key ("a")) = .null :=
  ⟨get_dispatch.1 [.bool true, .null] 0 (by decide),
   get_dispatch.2.1 [.bool true, .null] 2 (by decide),
   get_dispatch.2.2.1 [] [(("a"), .bool false)] ("a") (.bool true)
     (by intro p hp; simp at hp),
   get_dispatch.2.2.2.1 [(("a"), .bool true)] ("b")
     (by intro p hp; simp at hp; rw [hp]; simp),
   get_dispatch.2.2.2.2.1 (.bool false) 0 rfl,
   get_dispatch.2.2.2.2.2 (.array []) ("a") rfl⟩

/-- C2: chained `get` never fails — after any finite sequence of path
components the result is a `Value`, either a real node of the tree
(reachable by successful `index_into` steps) or the `Null` sentinel; and
chaining through an absent branch (the sentinel) keeps returning `Null`. -/
theorem get_chain_total :
    (∀ (v : Value) (ps : List PathComp),
        getPath v ps = .null ∨ IsNode (getPath v ps) v)
    ∧ (∀ ps : List PathComp, getPath .null ps = .null) := by
  constructor
  · intro v ps
    induction ps generalizing v with
    | nil => exact .inr (.refl v)
    | cons c ps ih =>
      show getPath (v.get c) ps = .null ∨ IsNode (getPath (v.get c) ps) v
      cases h : indexInto c v with
      | none =>
        have hn : Value.get v c = .null := by simp [Value.get, h]
        rw [hn]
        exact .inl (getPath_null ps)
      | some w =>
        have hw : Value.get v c = w := by simp [Value.get, h]
        rw [hw]
        rcases ih w with hnull | hnode
        · exact .inl hnull
        · exact .inr (.step c h hnode)
  · exact getPath_null

/-- C10: the borrowed-vs-owned choice of a `Str` is invisible — two `Str`
values with the same content are equal whatever their `Cow` tags, and
`as_str` returns the same content for both. -/
theorem borrow_invisible (b1 b2 : Bool) (s : String) :
    valueEq (.str ⟨b1, s⟩) (.str ⟨b2, s⟩) = true
    ∧ Value.as_str (.str ⟨b1, s⟩) = Value.as_str (.str ⟨b2, s⟩)
    ∧ Value.as_str (.str ⟨b1, s⟩) = some s := by
  refine ⟨?_, rfl, rfl⟩
  simp [valueEq]

theorem numberToOwned_eq (num : Number) (h : num.floatFinite = true) :
    numberToOwned num = some (ownedOfNumber num) := by
  obtain ⟨n⟩ := num
  cases n with
  | posInt u => rfl
  | negInt i => rfl
  | float f =>
    have hf : F64.isFinite f = true := h
    simp [numberToOwned, ownedOfNumber, sjFromF64, hf]

mutual

theorem toOwned_eq : ∀ (v : Value), floatsFinite v = true →
    toOwned v = some (ownedOf v)
  | .null, _ => rfl
  | .bool _, _ => rfl
  | .number num, h => by
    have hn : num.floatFinite = true := h
    simp [toOwned, ownedOf, numberToOwned_eq num hn]
  | .str _, _ => rfl
  | .array vs, h => by
    have hl := toOwnedList_eq vs h
    simp [toOwned, ownedOf, hl]
  | .object kvs, h => by
    have hl := toOwnedPairs_eq kvs h
    simp [toOwned, ownedOf, hl]

theorem toOwnedList_eq : ∀ (vs : List Value), floatsFiniteList vs = true →
    toOwnedList vs = some (ownedOfList vs)
  | [], _ => rfl
  | v :: vs, h => by
    have h1 : floatsFinite v = true := by
      have := (Bool.and_eq_true _ _).mp h
      exact this.1
    have h2 : floatsFiniteList vs = true := by
      have := (Bool.and_eq_true _ _).mp h
      exact this.2
    simp [toOwnedList, ownedOfList, toOwned_eq v h1, toOwnedList_eq vs h2]

theorem toOwnedPairs_eq : ∀ (kvs : List (String × Value)),
    floatsFinitePairs kvs = true → toOwnedPairs kvs = some (ownedOfPairs kvs)
  | [], _ => rfl
  | (k, v) :: kvs, h => by
    have h1 : floatsFinite v = true := by
      have := (Bool.and_eq_true _ _).mp h
      exact this.1
    have h2 : floatsFinitePairs kvs = true := by
      have := (Bool.and_eq_true _ _).mp h
      exact this.2
    simp [toOwnedPairs, ownedOfPairs, toOwned_eq v h1, toOwnedPairs_eq kvs h2]

end

theorem ownedOfList_map (vs : List Value) : ownedOfList vs = vs.map ownedOf := by
  induction vs with
  | nil => rfl
  | cons v vs ih => simp [ownedOfList, ih]

theorem ownedOfPairs_map (kvs : List (String × Value)) :
    ownedOfPairs kvs = kvs.map (fun p => (p.1, ownedOf p.2)) := by
  induction kvs with
  | nil => rfl
  | cons p kvs ih => obtain ⟨k, v⟩ := p; simp [ownedOfPairs, ih]

/-- C7: on every tree respecting the float-finiteness invariant, the owned
conversion succeeds and equals the structure-preserving recursive mapping
`ownedOf` — `Null` to `Null`, `Bool` to `Bool`, `Number` to the owned
number, `Str` to an owned copy of the content, and (as the second and third
conjuncts make explicit) `Array` element-wise and `Object` pair-wise in storage
order with owned keys. -/
theorem owned_conversion_structural :
    (∀ v : Value, floatsFinite v = true → toOwned v = some (ownedOf v))
    ∧ (∀ vs : List Value, ownedOf (.array vs) = .array (vs.map ownedOf))
    ∧ (∀ kvs : List (String × Value),
        ownedOf (.object kvs) = .object (kvs.map (fun p => (p.1, ownedOf p.2)))) :=
  ⟨toOwned_eq,
   fun vs => by simp [ownedOf, ownedOfList_map],
   fun kvs => by simp [ownedOf, ownedOfPairs_map]⟩

/-- Witness for C7 on a small two-level tree containing every variant
shape. -/
theorem owned_conversion_structural_witness :
    floatsFinite (.object [(("k"), .array [.number ⟨.float 0⟩, .str ⟨true, ("s")⟩]),
      (("l"), .bool false)]) = true
    ∧ toOwned (.object [(("k"), .array [.number ⟨.float 0⟩, .str ⟨true, ("s")⟩]),
        (("l"), .bool false)]) =
      some (ownedOf (.object [(("k"), .array [.number ⟨.float 0⟩, .str ⟨true, ("s")⟩]),
        (("l"), .bool false)])) :=
  ⟨by decide,
   owned_conversion_structural.1 _ (by decide)⟩

/-- C8: under the float-finiteness invariant the numeric owned conversion
never reaches the fatal `.unwrap()` failure: it always succeeds (the `none`
branch of `from_f64` is unreachable). -/
theorem number_owned_conversion_total (num : Number)
    (h : num.floatFinite = true) :
    numberToOwned num = some (ownedOfNumber num) ∧
    (numberToOwned num).isSome = true := by
  refine ⟨numberToOwned_eq num h, ?_⟩
  rw [numberToOwned_eq num h]
  rfl

/-- Witness for C8 at a finite `Float` payload (the bits of `1.0`,
`0x3FF0000000000000`). -/
theorem number_owned_conversion_total_witness :
    Number.floatFinite ⟨.float 4607182418800017408⟩ = true ∧
    (numberToOwned ⟨.float 4607182418800017408⟩).isSome = true :=
  ⟨by decide,
   (number_owned_conversion_total ⟨.float 4607182418800017408⟩ (by decide)).2⟩

theorem natDigsAux_mem (fuel : Nat) :
    ∀ (n c : Nat), c ∈ natDigsAux fuel n → 48 ≤ c ∧ c ≤ 57 := by
  induction fuel with
  | zero => intro n c hc; simp [natDigsAux] at hc
  | succ fuel ih =>
    intro n c hc
    rw [natDigsAux] at hc
    by_cases h : n < 10
    · rw [if_pos h] at hc
      simp at hc
      omega
    · rw [if_neg h] at hc
      rcases List.mem_append.mp hc with h1 | h2
      · exact ih _ _ h1
      · simp at h2
        omega

theorem natDigs_mem (n c : Nat) (hc : c ∈ natDigs n) : 48 ≤ c ∧ c ≤ 57 :=
  natDigsAux_mem (n + 1) n c hc

theorem dot_in_renderF64 (b : Nat) (h : F64.isFinite b = true) :
    46 ∈ renderF64 b := by
  have hb : (F64.expField b == 2047) = false := by
    simp only [F64.isFinite, bne_iff_ne, ne_eq] at h
    simpa using h
  rw [renderF64, if_neg (by simp [hb])]
  rcases le_or_lt 1075 (F64.normExp b) with hle | hlt
  · rw [if_pos hle]
    simp
  · rw [if_neg (not_le.mpr hlt)]
    simp

theorem renderN_shape (n1 n2 : N) (h1 : N.Inv n1) (h2 : N.Inv n2)
    (he : renderN n1 = renderN n2) : n1.shape = n2.shape := by
  cases n1 with
  | posInt u1 =>
    cases n2 with
    | posInt u2 => rfl
    | negInt i2 =>
      exfalso
      obtain ⟨-, hneg⟩ := h2
      simp only [renderN, renderI64, if_pos hneg] at he
      have h45 : (45 : Nat) ∈ natDigs u1 := by
        rw [he]; exact List.mem_cons_self _ _
      have := natDigs_mem u1 45 h45
      omega
    | float f2 =>
      exfalso
      obtain ⟨hf, -⟩ := h2
      have hdot := dot_in_renderF64 f2 hf
      simp only [renderN] at he
      rw [← he] at hdot
      have := natDigs_mem u1 46 hdot
      omega
  | negInt i1 =>
    cases n2 with
    | posInt u2 =>
      exfalso
      obtain ⟨-, hneg⟩ := h1
      simp only [renderN, renderI64, if_pos hneg] at he
      have h45 : (45 : Nat) ∈ natDigs u2 := by
        rw [← he]; exact List.mem_cons_self _ _
      have := natDigs_mem u2 45 h45
      omega
    | negInt i2 => rfl
    | float f2 =>
      exfalso
      obtain ⟨-, hneg⟩ := h1
      obtain ⟨hf, -⟩ := h2
      have hdot := dot_in_renderF64 f2 hf
      simp only [renderN, renderI64, if_pos hneg] at he
      rw [← he] at hdot
      rcases List.mem_cons.mp hdot with h46 | h46
      · omega
      · have := natDigs_mem _ 46 h46
        omega
  | float f1 =>
    cases n2 with
    | posInt u2 =>
      exfalso
      obtain ⟨hf, -⟩ := h1
      have hdot := dot_in_renderF64 f1 hf
      simp only [renderN] at he
      rw [he] at hdot
      have := natDigs_mem u2 46 hdot
      omega
    | negInt i2 =>
      exfalso
      obtain ⟨hf, -⟩ := h1
      obtain ⟨-, hneg⟩ := h2
      have hdot := dot_in_renderF64 f1 hf
      simp only [renderN, renderI64, if_pos hneg] at he
      rw [he] at hdot
      rcases List.mem_cons.mp hdot with h46 | h46
      · omega
      · have := natDigs_mem _ 46 h46
        omega
    | float f2 => rfl

theorem fmtList_map (vs : List Value) : fmtList vs = vs.map fmtDebug := by
  induction vs with
  | nil => rfl
  | cons v vs ih => simp [fmtList, ih]

theorem fmtPairs_map (kvs : List (String × Value)) :
    fmtPairs kvs = kvs.map (fun p =>
      codes ("(") ++ quoteCodes p.1 ++ codes (", ") ++ fmtDebug p.2 ++ codes (")")) := by
  induction kvs with
  | nil => rfl
  | cons p kvs ih => obtain ⟨k, v⟩ := p; simp [fmtPairs, ih]

/-- C9: the `Debug` rendering is a fixed textual form and a pure function of
the tree. Under the documented invariants, two `Number` values that render
alike have the same sub-shape, so the output separates `PosInt`, `NegInt`
and `Float` instead of collapsing them into one notation; and `Array` and
`Object` render by the default sequence rendering of the element-wise and
pair-wise `Debug` forms, preserving storage order. -/
theorem debug_rendering :
    (∀ n1 n2 : N, N.Inv n1 → N.Inv n2 →
        fmtDebug (.number ⟨n1⟩) = fmtDebug (.number ⟨n2⟩) → n1.shape = n2.shape)
    ∧ (∀ vs : List Value,
        fmtDebug (.array vs) = codes ("Array ") ++ renderListDebug (vs.map fmtDebug))
    ∧ (∀ kvs : List (String × Value),
        fmtDebug (.object kvs) = codes ("Object ") ++
          renderListDebug (kvs.map (fun p =>
            codes ("(") ++ quoteCodes p.1 ++ codes (", ") ++ fmtDebug p.2 ++ codes (")")))) := by
  refine ⟨?_, ?_, ?_⟩
  · intro n1 n2 h1 h2 he
    simp only [fmtDebug] at he
    have he2 : codes ("Number(") ++ renderN n1 = codes ("Number(") ++ renderN n2 :=
      List.append_cancel_right he
    exact renderN_shape n1 n2 h1 h2 (List.append_cancel_left he2)
  · intro vs
    simp [fmtDebug, fmtList_map]
  · intro kvs
    simp [fmtDebug, fmtPairs_map]

/-- Witness for C9 at the invariant-respecting payload `NegInt(-5)`. -/
theorem debug_rendering_witness :
    N.Inv (.negInt (-5)) ∧ N.shape (.negInt (-5)) = N.shape (.negInt (-5)) :=
  ⟨⟨by decide, by decide⟩,
   debug_rendering.1 (.negInt (-5)) (.negInt (-5))
     ⟨by decide, by decide⟩ ⟨by decide, by decide⟩ rfl⟩

end SJB
